import Mathlib

/-!
Verification of the batch orchestration and naming subsystem of the
Autolab batch client: the template-expansion naming engine
(`formatName`), the retry/backoff policy around the remote output call
(`generateOutput`), the sequential batch orchestrator (`processSingleFile`,
`runQueue`, `processAll`) and the archive builder
(`generateSubmissionZip`).  Strings are modelled as `List Char`; the
JavaScript regex-replace operations are modelled by explicit left-to-right
scanners.
-/

set_option maxHeartbeats 1000000
set_option maxRecDepth 10000

abbrev Str := List Char

/-- One step of JS `String.replace(/tok/g, rep)`: fuel-indexed left-to-right
non-overlapping replacement of every occurrence of `tok` by `rep`. -/
def replaceAllF (tok rep : Str) : Nat → Str → Str
  | _, [] => []
  | 0, s => s
  | fuel + 1, c :: cs =>
    if !tok.isEmpty && tok.isPrefixOf (c :: cs) then
      rep ++ replaceAllF tok rep fuel ((c :: cs).drop tok.length)
    else
      c :: replaceAllF tok rep fuel cs

/-- JS `pattern.replace(/tok/g, rep)` with `tok` a literal string and a
replacement `rep` containing no dollar character: ECMAScript
GetSubstitution then splices `rep` in literally, which is what this
definition does.  Theorems whose replacements are file-derived therefore
restrict filenames to be dollar-free, so that this model coincides with
the program. -/
def replaceAll (tok rep : Str) (s : Str) : Str :=
  replaceAllF tok rep s.length s

/-- Whether `tok` occurs as a contiguous substring of `s`
(JS `s.includes(tok)`). -/
def occursIn (tok : Str) : Str → Bool
  | [] => tok.isEmpty
  | c :: cs => tok.isPrefixOf (c :: cs) || occursIn tok cs

/-- The characters matched by JS `\s` (ECMAScript WhiteSpace and
LineTerminator set). -/
def isJsSpace (c : Char) : Bool :=
  c = ' ' || c = '\t' || c = '\n' || c = '\x0b' || c = '\x0c' || c = '\r' ||
  c = '\u00A0' || c = '\u1680' || ('\u2000' ≤ c && c ≤ '\u200A') ||
  c = '\u2028' || c = '\u2029' || c = '\u202F' || c = '\u205F' ||
  c = '\u3000' || c = '\uFEFF'

/-- The character class `[_\-\s]` from the `[index]`-removal regex. -/
def isIndexSep (c : Char) : Bool :=
  c = '_' || c = '-' || isJsSpace c

def indexTok : Str := "[index]".data
def nameTok : Str := "[name]".data
def extTok : Str := "[ext]".data
def fullTok : Str := "[full]".data

/-- Fuel-indexed model of `pattern.replace` deleting every `[index]` with the regex class:
delete every occurrence of `[index]` together with at most one
immediately following character from the class `[_\-\s]`. -/
def stripIndexSepF : Nat → Str → Str
  | _, [] => []
  | 0, s => s
  | fuel + 1, c :: cs =>
    if indexTok.isPrefixOf (c :: cs) then
      match (c :: cs).drop indexTok.length with
      | [] => []
      | d :: ds => if isIndexSep d then stripIndexSepF fuel ds else stripIndexSepF fuel (d :: ds)
    else c :: stripIndexSepF fuel cs

def stripIndexSep (s : Str) : Str :=
  stripIndexSepF s.length s

/-- Drop one leading `[_\-\s]` character, if present. -/
def dropOneSep : Str → Str
  | [] => []
  | d :: ds => if isIndexSep d then ds else d :: ds

/-- JS `l.lastIndexOf(c)`: largest index holding `c`, or `-1`. -/
def lastIndexOf (c : Char) : Str → Int
  | [] => -1
  | d :: ds =>
    let r := lastIndexOf c ds
    if r ≥ 0 then r + 1
    else if d = c then 0 else -1

/-- JS `s.split(c)` for a single-character separator. -/
def splitChar (c : Char) : Str → List Str
  | [] => [[]]
  | d :: ds =>
    let r := splitChar c ds
    if d = c then [] :: r
    else
      match r with
      | [] => [[d]]
      | h :: t => (d :: h) :: t

/-- `file.name.substring(0, file.name.lastIndexOf('.')) || file.name`. -/
def nameWithoutExt (name : Str) : Str :=
  let s := name.take (lastIndexOf '.' name).toNat
  if s = [] then name else s

/-- `file.name.split('.').pop() || ''`. -/
def extOf (name : Str) : Str :=
  (splitChar '.' name).getLastD []

structure NamingConfig where
  startIndex : Int
  numberingEnabled : Bool
deriving DecidableEq

inductive FileStatus
  | pending
  | running
  | completed
  | error
deriving DecidableEq

structure ProgramFile where
  id : Nat
  name : Str
  content : Str
  language : Str
  status : FileStatus
  output : Option Str
  imageBlob : Option Nat
deriving DecidableEq

/-- The first three placeholder substitutions of `formatName`:
`[name]`, `[ext]`, `[full]`, applied in that order.  The replacements are
substrings of the filename, so for filenames containing no dollar
character they are free of dollar sequences and `replaceAll` agrees with
the ECMAScript replacement the program performs. -/
def expandFileToks (pattern : Str) (file : ProgramFile) : Str :=
  replaceAll fullTok file.name
    (replaceAll extTok (extOf file.name)
      (replaceAll nameTok (nameWithoutExt file.name) pattern))

/-- Decimal rendering of an integer (JS `Number.prototype.toString`). -/
def intStr (i : Int) : Str := (toString i).data

/-- The naming engine `formatName(pattern, file, index)` with the naming
configuration made explicit. -/
def formatName (cfg : NamingConfig) (pattern : Str) (file : ProgramFile) (index : Nat) : Str :=
  let s := expandFileToks pattern file
  if cfg.numberingEnabled then
    replaceAll indexTok (intStr (cfg.startIndex + index)) s
  else
    stripIndexSep s

/-! ### Remote output call: error shape and retry/backoff policy -/

/-- A JavaScript value found in one of the sniffed error fields:
absent (`undefined`/`null`), a number, or some other defined value. -/
inductive JsVal
  | undef
  | num (n : Int)
  | other
deriving DecidableEq

/-- A thrown remote-call error: the five sniffed status-like fields
(`status`, `code`, `response.status`, `error.code`, `error.status`)
and the string form of the error (`String(err)`). -/
structure JsError where
  status : JsVal
  code : JsVal
  responseStatus : JsVal
  errorCode : JsVal
  errorStatus : JsVal
  strForm : Str
deriving DecidableEq

/-- JS `a ?? b ?? ...`: first value that is not `undefined`/`null`. -/
def jsCoalesce : List JsVal → JsVal
  | [] => JsVal.undef
  | JsVal.undef :: vs => jsCoalesce vs
  | v :: _ => v

/-- `getErrorStatus`: sniff the five fields in order; return the value
only when it is a number. -/
def getErrorStatus (e : JsError) : Option Int :=
  match jsCoalesce [e.status, e.code, e.responseStatus, e.errorCode, e.errorStatus] with
  | JsVal.num n => some n
  | _ => none

def tok429 : Str := "429".data
def tokResourceExhausted : Str := "RESOURCE_EXHAUSTED".data

/-- The rate-limit classification used by the retry loop:
`status === 429`, or the marker "429" or "RESOURCE_EXHAUSTED" in
`String(err)`. -/
def isRateLimited (e : JsError) : Bool :=
  getErrorStatus e == some 429 || occursIn tok429 e.strForm ||
    occursIn tokResourceExhausted e.strForm

def maxAttempts : Nat := 4

def consoleClearedMsg : Str := "Console was cleared.".data
def noOutputMsg : Str := "No output generated.".data

/-- `response.text || (isHtml ? "Console was cleared." : "No output generated.")`. -/
def dfltText (isHtml : Bool) : Str :=
  if isHtml then consoleClearedMsg else noOutputMsg

/-- Rate-limit diagnostic produced by the outer catch of `generateOutput`. -/
def rateLimitMsg : Str :=
  ("Execution Error: Gemini API quota/rate limit exceeded (429).\nFix: wait a bit, reduce batch size, or enable billing / increase quota in Google AI Studio.\nDocs: https://ai.google.dev/gemini-api/docs/rate-limits").data

/-- Generic diagnostic produced by the outer catch of `generateOutput`. -/
def genericErrMsg : Str :=
  "Execution Error: Failed to generate output via AI.".data

/-- Result of the retry loop body: a returned text or a thrown error. -/
inductive GenRes
  | ok (t : Str)
  | thrown (e : JsError)
deriving DecidableEq

/-- The retry loop `for (attempt = 1; attempt <= maxAttempts; attempt++)`
of `generateOutput`, driven by the list of remaining attempt numbers.
Returns the loop result, the number of remote calls made, and the list of
backoff delays (ms) actually awaited, in order. -/
def genLoop (remote : Nat → Except JsError Str) (isHtml : Bool) :
    List Nat → GenRes × Nat × List Nat
  | [] => (GenRes.ok (dfltText isHtml), 0, [])
  | attempt :: rest =>
    match remote attempt with
    | Except.ok t => (GenRes.ok (if t = [] then dfltText isHtml else t), 1, [])
    | Except.error e =>
      if isRateLimited e = false ∨ attempt = maxAttempts then
        (GenRes.thrown e, 1, [])
      else
        let r := genLoop remote isHtml rest
        (r.1, r.2.1 + 1, (1500 * 2 ^ (attempt - 1)) :: r.2.2)

/-- The attempt numbers visited by the retry loop. -/
def attemptSeq : List Nat := [1, 2, 3, 4]

/-- `generateOutput` for one file: the retry loop wrapped in the outer
catch that converts a propagated error into a diagnostic string.
Returns the resolved output text, the number of remote calls, and the
backoff delays. -/
def generateOutput (isHtml : Bool) (remote : Nat → Except JsError Str) :
    Str × Nat × List Nat :=
  match genLoop remote isHtml attemptSeq with
  | (GenRes.ok t, n, ds) => (t, n, ds)
  | (GenRes.thrown e, n, ds) =>
    (if getErrorStatus e = some 429 ∨ occursIn tokResourceExhausted e.strForm then
      rateLimitMsg
    else genericErrMsg, n, ds)

/-! ### Batch orchestrator -/

def htmlTag : Str := "html".data

/-- External collaborators of the orchestrator: the remote output service
(per file id, per attempt number), the snapshot capture service
(`Except.error` models a throw), and whether a rendered element handle is
registered for a file id. -/
structure BatchEnv where
  remote : Nat → Nat → Except JsError Str
  capture : Nat → Except Unit Nat
  hasRef : Nat → Bool

/-- Observable side effects of a batch run: remote calls made, snapshot
captures attempted, backoff delays awaited, and the ids handed to
`processSingleFile`, in order. -/
structure Trace where
  remoteCalls : Nat
  captures : Nat
  retryDelays : List Nat
  processedIds : List Nat
deriving DecidableEq

def Trace.empty : Trace := ⟨0, 0, [], []⟩

def Trace.app (t u : Trace) : Trace :=
  ⟨t.remoteCalls + u.remoteCalls, t.captures + u.captures,
   t.retryDelays ++ u.retryDelays, t.processedIds ++ u.processedIds⟩

/-- `processSingleFile(fileId)`: mark RUNNING, look the file up in the
closed-over snapshot of the batch, generate output, mark COMPLETED with
the output attached, then (when a rendered element handle exists) capture
the snapshot — attaching the image on success and marking ERROR when the
capture throws. -/
def processSingleFile (env : BatchEnv) (snapshot st : List ProgramFile) (fid : Nat) :
    List ProgramFile × Trace :=
  let st1 := st.map (fun f => if f.id = fid then { f with status := FileStatus.running } else f)
  match snapshot.find? (fun f => f.id == fid) with
  | none => (st1, ⟨0, 0, [], [fid]⟩)
  | some file =>
    let gen := generateOutput (file.language == htmlTag) (env.remote fid)
    let st2 := st1.map (fun f =>
      if f.id = fid then { f with output := some gen.1, status := FileStatus.completed } else f)
    if env.hasRef fid then
      match env.capture fid with
      | Except.ok b =>
        (st2.map (fun f => if f.id = fid then { f with imageBlob := some b } else f),
         ⟨gen.2.1, 1, gen.2.2, [fid]⟩)
      | Except.error _ =>
        (st2.map (fun f => if f.id = fid then { f with status := FileStatus.error } else f),
         ⟨gen.2.1, 1, gen.2.2, [fid]⟩)
    else (st2, ⟨gen.2.1, 0, gen.2.2, [fid]⟩)

/-- The sequential loop of `processAll`: process the queued ids one at a
time against the evolving state, accumulating the trace. -/
def runQueue (env : BatchEnv) (snapshot : List ProgramFile) :
    List Nat → List ProgramFile → List ProgramFile × Trace
  | [], st => (st, Trace.empty)
  | fid :: rest, st =>
    let r1 := processSingleFile env snapshot st fid
    let r2 := runQueue env snapshot rest r1.1
    (r2.1, r1.2.app r2.2)

/-- `processAll`: rejected while the single-flight flag is set; otherwise
process, in original order, exactly the files whose status is not
COMPLETED. -/
def processAll (env : BatchEnv) (isProcessing : Bool) (files : List ProgramFile) :
    List ProgramFile × Trace :=
  if isProcessing then (files, Trace.empty)
  else
    runQueue env files
      ((files.filter (fun f => f.status != FileStatus.completed)).map (fun f => f.id))
      files

/-! ### Archive builder -/

inductive ZipData
  | text (s : Str)
  | blob (b : Nat)
deriving DecidableEq

/-- One file written into the archive: enclosing top-level folder name,
file name within the folder, and contents. -/
structure ZipEntry where
  folder : Str
  entryName : Str
  data : ZipData
deriving DecidableEq

def pngSuffix : Str := ".png".data

/-- `generateSubmissionZip`: for each file, in batch order, a folder named
by the folder pattern holding the original content under the original
filename, plus — when an image was captured — the image under the
screenshot-pattern name with `.png` appended. -/
def generateSubmissionZip (files : List ProgramFile)
    (folderPattern screenshotPattern : Str) (cfg : NamingConfig) : List ZipEntry :=
  (files.enum).flatMap (fun p =>
    let folderName := formatName cfg folderPattern p.2 p.1
    let screenshotName := formatName cfg screenshotPattern p.2 p.1
    ZipEntry.mk folderName p.2.name (ZipData.text p.2.content) ::
      (match p.2.imageBlob with
       | some b => [ZipEntry.mk folderName (screenshotName ++ pngSuffix) (ZipData.blob b)]
       | none => []))

/-! ### Claim-side (specification-worded) variant of the `[index]` removal

The specification describes the separator optionally deleted after
`[index]` as "underscore, hyphen, or space".  The following definitions
follow those words literally, for comparison with the character
class `[_\-\s]`. -/

/-- Separator set as worded by the specification: underscore, hyphen, or
space. -/
def isSepClaimed (c : Char) : Bool :=
  c = '_' || c = '-' || c = ' '

def stripIndexSepClaimedF : Nat → Str → Str
  | _, [] => []
  | 0, s => s
  | fuel + 1, c :: cs =>
    if indexTok.isPrefixOf (c :: cs) then
      match (c :: cs).drop indexTok.length with
      | [] => []
      | d :: ds =>
        if isSepClaimed d then stripIndexSepClaimedF fuel ds
        else stripIndexSepClaimedF fuel (d :: ds)
    else c :: stripIndexSepClaimedF fuel cs

def stripIndexSepClaimed (s : Str) : Str :=
  stripIndexSepClaimedF s.length s

/-- `formatName` as worded by the `[index]` clause of the specification
(separator restricted to underscore, hyphen, space); identical to
`formatName` everywhere else. -/
def formatNameClaimed (cfg : NamingConfig) (pattern : Str) (file : ProgramFile) (index : Nat) : Str :=
  let s := expandFileToks pattern file
  if cfg.numberingEnabled then
    replaceAll indexTok (intStr (cfg.startIndex + index)) s
  else
    stripIndexSepClaimed s

/-- `sep.intercalate parts`, by direct recursion. -/
def joinWith (sep : Str) : List Str → Str
  | [] => []
  | [p] => p
  | p :: q :: rest => p ++ sep ++ joinWith sep (q :: rest)

/-! ### Concrete inputs used by witnesses and counterexamples -/

def cfgOn : NamingConfig := ⟨1, true⟩
def cfgOff : NamingConfig := ⟨1, false⟩

def pyTag : Str := "py".data
def outW : Str := "hello".data

def fileAPy : ProgramFile :=
  ⟨0, "a.py".data, [], pyTag, FileStatus.pending, none, none⟩

def fileNoext : ProgramFile :=
  ⟨0, "noext".data, [], pyTag, FileStatus.pending, none, none⟩

def fileMainJava : ProgramFile :=
  ⟨0, "Main.java".data, [], "java".data, FileStatus.pending, none, none⟩

def fileInj : ProgramFile :=
  ⟨0, "[index].x".data, [], pyTag, FileStatus.pending, none, none⟩

def err429W : JsError :=
  ⟨JsVal.num 429, JsVal.undef, JsVal.undef, JsVal.undef, JsVal.undef,
   "ApiError: 429 Too Many Requests".data⟩

def errStr429 : JsError :=
  ⟨JsVal.undef, JsVal.undef, JsVal.undef, JsVal.undef, JsVal.undef,
   "Error: got HTTP 429".data⟩

def errOther : JsError :=
  ⟨JsVal.num 500, JsVal.undef, JsVal.undef, JsVal.undef, JsVal.undef,
   "Error: internal failure".data⟩

/-- Remote that is rate limited (numeric 429) three times, then succeeds. -/
def remoteW : Nat → Except JsError Str :=
  fun j => if j ≤ 3 then Except.error err429W else Except.ok outW

/-- Remote that always fails with an error whose only rate-limit marker is
the substring "429" in its string form. -/
def remote429Str : Nat → Except JsError Str :=
  fun _ => Except.error errStr429

/-- Remote that always fails with a numeric-429 error. -/
def remoteRL : Nat → Except JsError Str :=
  fun _ => Except.error err429W

/-- Remote that always fails with a non-rate-limited error. -/
def remoteOther : Nat → Except JsError Str :=
  fun _ => Except.error errOther

def fileB : ProgramFile :=
  ⟨1, "b.py".data, "print(2)".data, pyTag, FileStatus.pending, none, none⟩

def envC3 : BatchEnv :=
  ⟨fun _ _ => Except.error errOther, fun _ => Except.ok 0, fun _ => false⟩

def fileDoneA : ProgramFile :=
  ⟨1, "a.py".data, "print(1)".data, pyTag, FileStatus.completed, some outW, some 3⟩

def fileDoneB : ProgramFile :=
  ⟨2, "b.py".data, "print(2)".data, pyTag, FileStatus.completed, some outW, none⟩

def envNull : BatchEnv :=
  ⟨fun _ _ => Except.error errOther, fun _ => Except.error (), fun _ => true⟩

def mkPending (i : Nat) (nm : Str) : ProgramFile :=
  ⟨i, nm, nm, pyTag, FileStatus.pending, none, none⟩

def filesW5 : List ProgramFile :=
  [mkPending 1 ("a1.py".data), mkPending 2 ("a2.py".data), mkPending 3 ("a3.py".data),
   mkPending 4 ("a4.py".data), mkPending 5 ("a5.py".data)]

/-- Environment where only the capture of item 3 throws. -/
def envC5 : BatchEnv :=
  ⟨fun _ _ => Except.ok outW,
   fun fid => if fid = 3 then Except.error () else Except.ok fid,
   fun _ => true⟩

def envRefFree : BatchEnv :=
  ⟨fun _ _ => Except.ok outW, fun _ => Except.ok 9, fun _ => false⟩

def envRefOk : BatchEnv :=
  ⟨fun _ _ => Except.ok outW, fun _ => Except.ok 9, fun _ => true⟩

def itemImg : ProgramFile :=
  ⟨1, "a.py".data, "print(1)".data, pyTag, FileStatus.completed, some outW, some 5⟩

def itemNoImg : ProgramFile :=
  ⟨2, "b.py".data, "print(2)".data, pyTag, FileStatus.completed, some outW, none⟩

def itemColA : ProgramFile :=
  ⟨1, "a.py".data, "print(1)".data, pyTag, FileStatus.completed, some outW, none⟩

def itemColB : ProgramFile :=
  ⟨2, "a.py".data, "print(2)".data, pyTag, FileStatus.completed, some outW, some 7⟩

/-- Expected per-item outcome of a batch run in which the remote call
succeeds on the first attempt with text `T fid` and a rendered element
handle exists: COMPLETED with image on capture success, ERROR retaining
the output on capture throw. -/
def itemResult (env : BatchEnv) (T : Nat → Str) (f : ProgramFile) : ProgramFile :=
  match env.capture f.id with
  | Except.ok b =>
    { f with status := FileStatus.completed, output := some (T f.id), imageBlob := some b }
  | Except.error _ =>
    { f with status := FileStatus.error, output := some (T f.id) }

/-! ## Lemmas about the string scanners -/

theorem replaceAllF_fuel (tok rep : Str) :
    ∀ (f1 f2 : Nat) (s : Str), s.length ≤ f1 → s.length ≤ f2 →
      replaceAllF tok rep f1 s = replaceAllF tok rep f2 s := by
  intro f1
  induction f1 with
  | zero =>
    intro f2 s h1 _
    have hs : s = [] := List.eq_nil_of_length_eq_zero (Nat.le_zero.mp h1)
    subst hs
    cases f2 <;> rfl
  | succ f ih =>
    intro f2 s h1 h2
    cases s with
    | nil => cases f2 <;> rfl
    | cons c cs =>
      cases f2 with
      | zero => simp at h2
      | succ g =>
        simp only [replaceAllF]
        by_cases hc : (!tok.isEmpty && tok.isPrefixOf (c :: cs)) = true
        · have htok : 1 ≤ tok.length := by
            have : tok ≠ [] := by
              intro h
              subst h
              simp at hc
            have := List.length_pos.mpr this
            omega
          have hdl : ((c :: cs).drop tok.length).length ≤ f := by
            simp only [List.length_drop, List.length_cons]
            simp only [List.length_cons] at h1
            omega
          have hdl2 : ((c :: cs).drop tok.length).length ≤ g := by
            simp only [List.length_drop, List.length_cons]
            simp only [List.length_cons] at h2
            omega
          simp [hc, ih g _ hdl hdl2]
        · have hl1 : cs.length ≤ f := by
            simp only [List.length_cons] at h1
            omega
          have hl2 : cs.length ≤ g := by
            simp only [List.length_cons] at h2
            omega
          simp [hc, ih g _ hl1 hl2]

theorem replaceAll_nil (tok rep : Str) : replaceAll tok rep [] = [] := rfl

theorem replaceAll_cons_neg (tok rep : Str) (c : Char) (cs : Str)
    (h : tok.isPrefixOf (c :: cs) = false) :
    replaceAll tok rep (c :: cs) = c :: replaceAll tok rep cs := by
  show replaceAllF tok rep (cs.length + 1) (c :: cs) = _
  simp only [replaceAllF, h, Bool.and_false, if_false]
  rfl

theorem replaceAll_match (tok rep t : Str) (h : tok ≠ []) :
    replaceAll tok rep (tok ++ t) = rep ++ replaceAll tok rep t := by
  have hpre : tok.isPrefixOf (tok ++ t) = true :=
    List.isPrefixOf_iff_prefix.mpr (List.prefix_append _ _)
  cases tok with
  | nil => exact absurd rfl h
  | cons a as =>
    rw [List.cons_append] at hpre
    show replaceAllF (a :: as) rep (((a :: as) ++ t).length) ((a :: as) ++ t) = _
    rw [List.cons_append, List.length_cons]
    simp only [replaceAllF, hpre, List.isEmpty_cons, Bool.not_false, Bool.true_and, if_true]
    have hdrop : (a :: (as ++ t)).drop (a :: as).length = t := by
      rw [← List.cons_append, List.drop_left]
    rw [hdrop]
    congr 1
    have h1 : t.length ≤ (as ++ t).length := by
      rw [List.length_append]
      omega
    exact replaceAllF_fuel _ _ _ _ _ h1 (Nat.le_refl _)

theorem occursIn_cons (tok : Str) (c : Char) (cs : Str) :
    occursIn tok (c :: cs) = (tok.isPrefixOf (c :: cs) || occursIn tok cs) := rfl

theorem replaceAll_of_occursIn_eq_false (tok rep : Str) :
    ∀ s : Str, occursIn tok s = false → replaceAll tok rep s = s := by
  intro s
  induction s with
  | nil => intro _; rfl
  | cons c cs ih =>
    intro h
    rw [occursIn_cons, Bool.or_eq_false_iff] at h
    rw [replaceAll_cons_neg _ _ _ _ h.1, ih h.2]

theorem not_mem_cons_self {c : Char} {a2 : Str} (hmem : '[' ∉ c :: a2) : c ≠ '[' := by
  intro h
  subst h
  exact hmem (List.mem_cons_self _ _)

theorem not_mem_of_cons {c : Char} {a2 : Str} (hmem : '[' ∉ c :: a2) : '[' ∉ a2 :=
  fun hm => hmem (List.mem_cons_of_mem _ hm)

theorem replaceAll_skip (tt rep : Str) :
    ∀ (a t : Str), '[' ∉ a →
      replaceAll ('[' :: tt) rep (a ++ t) = a ++ replaceAll ('[' :: tt) rep t := by
  intro a
  induction a with
  | nil => intro t _; rfl
  | cons c a2 ih =>
    intro t hmem
    have hc : ('[' == c) = false := by
      simp only [beq_eq_false_iff_ne, ne_eq]
      exact fun h => (not_mem_cons_self hmem) h.symm
    have hpre : ('[' :: tt).isPrefixOf (c :: (a2 ++ t)) = false := by
      rw [List.isPrefixOf_cons₂, hc, Bool.false_and]
    rw [List.cons_append, replaceAll_cons_neg _ _ _ _ hpre,
      ih t (not_mem_of_cons hmem), List.cons_append]

theorem occursIn_eq_false (tt : Str) :
    ∀ s : Str, '[' ∉ s → occursIn ('[' :: tt) s = false := by
  intro s
  induction s with
  | nil => intro _; rfl
  | cons c cs ih =>
    intro hmem
    have hc : ('[' == c) = false := by
      simp only [beq_eq_false_iff_ne, ne_eq]
      exact fun h => (not_mem_cons_self hmem) h.symm
    rw [occursIn_cons, List.isPrefixOf_cons₂, hc, Bool.false_and, Bool.false_or]
    exact ih (not_mem_of_cons hmem)

theorem replaceAll_id_of_not_mem (tt rep : Str) (a : Str) (h : '[' ∉ a) :
    replaceAll ('[' :: tt) rep a = a :=
  replaceAll_of_occursIn_eq_false _ _ _ (occursIn_eq_false tt a h)

theorem stripIndexSepF_fuel :
    ∀ (f1 f2 : Nat) (s : Str), s.length ≤ f1 → s.length ≤ f2 →
      stripIndexSepF f1 s = stripIndexSepF f2 s := by
  intro f1
  induction f1 with
  | zero =>
    intro f2 s h1 _
    have hs : s = [] := List.eq_nil_of_length_eq_zero (Nat.le_zero.mp h1)
    subst hs
    cases f2 <;> rfl
  | succ f ih =>
    intro f2 s h1 h2
    cases s with
    | nil => cases f2 <;> rfl
    | cons c cs =>
      cases f2 with
      | zero => simp at h2
      | succ g =>
        simp only [stripIndexSepF]
        simp only [List.length_cons] at h1 h2
        have h7 : indexTok.length = 7 := rfl
        by_cases hp : indexTok.isPrefixOf (c :: cs) = true
        · simp only [hp, if_true]
          cases hd : (c :: cs).drop indexTok.length with
          | nil => rfl
          | cons d ds =>
            have hlen : cs.length + 1 - indexTok.length = ds.length + 1 := by
              have := congrArg List.length hd
              simpa [List.length_drop] using this
            by_cases hsep : isIndexSep d = true
            · simp only [hsep, if_true]
              exact ih g ds (by omega) (by omega)
            · simp only [hsep, if_false]
              refine ih g (d :: ds) ?_ ?_
              · simp only [List.length_cons]
                omega
              · simp only [List.length_cons]
                omega
        · simp only [hp, if_false]
          exact congrArg (c :: ·) (ih g cs (by omega) (by omega))

theorem indexTok_cons : indexTok = '[' :: 'i' :: 'n' :: 'd' :: 'e' :: 'x' :: ']' :: [] := rfl

theorem stripIndexSep_nil : stripIndexSep [] = [] := rfl

theorem stripIndexSep_cons_neg (c : Char) (cs : Str)
    (h : indexTok.isPrefixOf (c :: cs) = false) :
    stripIndexSep (c :: cs) = c :: stripIndexSep cs := by
  show stripIndexSepF (cs.length + 1) (c :: cs) = _
  simp only [stripIndexSepF, h, if_false]
  rfl

theorem stripIndexSepF_cons (fuel : Nat) (c : Char) (cs : Str) :
    stripIndexSepF (fuel + 1) (c :: cs) =
      if indexTok.isPrefixOf (c :: cs) then
        (match (c :: cs).drop indexTok.length with
         | [] => []
         | d :: ds => if isIndexSep d then stripIndexSepF fuel ds else stripIndexSepF fuel (d :: ds))
      else c :: stripIndexSepF fuel cs := rfl

theorem stripIndexSep_cons_eq (c : Char) (cs : Str) :
    stripIndexSep (c :: cs) =
      if indexTok.isPrefixOf (c :: cs) then
        (match (c :: cs).drop indexTok.length with
         | [] => []
         | d :: ds => if isIndexSep d then stripIndexSep ds else stripIndexSep (d :: ds))
      else c :: stripIndexSep cs := by
  show stripIndexSepF (cs.length + 1) (c :: cs) = _
  rw [stripIndexSepF_cons]
  by_cases hp : indexTok.isPrefixOf (c :: cs) = true
  · rw [if_pos hp, if_pos hp]
    cases hd : (c :: cs).drop indexTok.length with
    | nil => rfl
    | cons d ds =>
      have hlen : cs.length + 1 - indexTok.length = ds.length + 1 := by
        have := congrArg List.length hd
        simpa [List.length_drop] using this
      have h7 : indexTok.length = 7 := rfl
      dsimp only
      by_cases hsep : isIndexSep d = true
      · rw [if_pos hsep, if_pos hsep]
        exact stripIndexSepF_fuel _ _ _ (by omega) (Nat.le_refl _)
      · rw [if_neg hsep, if_neg hsep]
        exact stripIndexSepF_fuel _ _ _ (by simp only [List.length_cons]; omega) (Nat.le_refl _)
  · rw [if_neg hp, if_neg hp]
    rfl

theorem stripIndexSep_match (t : Str) :
    stripIndexSep (indexTok ++ t) = stripIndexSep (dropOneSep t) := by
  have hpre : indexTok.isPrefixOf ('[' :: 'i' :: 'n' :: 'd' :: 'e' :: 'x' :: ']' :: t) = true :=
    List.isPrefixOf_iff_prefix.mpr ⟨t, rfl⟩
  rw [show indexTok ++ t = '[' :: 'i' :: 'n' :: 'd' :: 'e' :: 'x' :: ']' :: t from rfl,
    stripIndexSep_cons_eq, if_pos hpre,
    show ('[' :: 'i' :: 'n' :: 'd' :: 'e' :: 'x' :: ']' :: t).drop indexTok.length = t from rfl]
  cases t with
  | nil => rfl
  | cons d ds =>
    dsimp only
    by_cases hsep : isIndexSep d = true
    · rw [if_pos hsep]
      simp [dropOneSep, hsep]
    · rw [if_neg hsep]
      simp [dropOneSep, hsep]

theorem stripIndexSep_of_occursIn_eq_false :
    ∀ s : Str, occursIn indexTok s = false → stripIndexSep s = s := by
  intro s
  induction s with
  | nil => intro _; rfl
  | cons c cs ih =>
    intro h
    rw [occursIn_cons, Bool.or_eq_false_iff] at h
    rw [stripIndexSep_cons_eq, if_neg (by rw [h.1]; exact Bool.false_ne_true), ih h.2]

theorem occursIn_indexTok_eq_false (s : Str) (h : '[' ∉ s) :
    occursIn indexTok s = false :=
  occursIn_eq_false ('i' :: 'n' :: 'd' :: 'e' :: 'x' :: ']' :: []) s h

theorem stripIndexSep_id_of_not_mem (s : Str) (h : '[' ∉ s) :
    stripIndexSep s = s :=
  stripIndexSep_of_occursIn_eq_false s (occursIn_indexTok_eq_false s h)

theorem stripIndexSep_skip :
    ∀ (a t : Str), '[' ∉ a → stripIndexSep (a ++ t) = a ++ stripIndexSep t := by
  intro a
  induction a with
  | nil => intro t _; rfl
  | cons c a2 ih =>
    intro t hmem
    have hc : ('[' == c) = false := by
      simp only [beq_eq_false_iff_ne, ne_eq]
      exact fun h => (not_mem_cons_self hmem) h.symm
    have hpre : indexTok.isPrefixOf (c :: (a2 ++ t)) = false := by
      rw [indexTok_cons, List.isPrefixOf_cons₂, hc, Bool.false_and]
    rw [List.cons_append, stripIndexSep_cons_eq,
      if_neg (by rw [hpre]; exact Bool.false_ne_true),
      ih t (not_mem_of_cons hmem), List.cons_append]

theorem joinWith_cons_cons (sep : Str) (p q : Str) (rest : List Str) :
    joinWith sep (p :: q :: rest) = p ++ sep ++ joinWith sep (q :: rest) := rfl

theorem forall_tail {P : Str → Prop} {p : Str} {ps : List Str}
    (h : ∀ q ∈ p :: ps, P q) : ∀ q ∈ ps, P q :=
  fun q hq => h q (List.mem_cons_of_mem _ hq)

theorem forall_head {P : Str → Prop} {p : Str} {ps : List Str}
    (h : ∀ q ∈ p :: ps, P q) : P p :=
  h p (List.mem_cons_self _ _)

theorem replaceAll_other_joinWith (c2 : Char) (tt rep : Str) (hc2 : (c2 == 'i') = false) :
    ∀ (parts : List Str), (∀ q ∈ parts, '[' ∉ q) →
      replaceAll ('[' :: c2 :: tt) rep (joinWith indexTok parts) = joinWith indexTok parts := by
  intro parts
  induction parts with
  | nil => intro _; rfl
  | cons p ps ih =>
    intro hmem
    cases ps with
    | nil => exact replaceAll_id_of_not_mem _ _ p (forall_head hmem)
    | cons q rest =>
      have h1 : joinWith indexTok (p :: q :: rest) =
          p ++ ('[' :: (('i' :: 'n' :: 'd' :: 'e' :: 'x' :: ']' :: []) ++
            joinWith indexTok (q :: rest))) := by
        rw [joinWith_cons_cons, indexTok_cons, List.append_assoc, List.cons_append]
      have hpre : ('[' :: c2 :: tt).isPrefixOf
          ('[' :: (('i' :: 'n' :: 'd' :: 'e' :: 'x' :: ']' :: []) ++
            joinWith indexTok (q :: rest))) = false := by
        rw [List.cons_append, List.isPrefixOf_cons₂, List.isPrefixOf_cons₂, hc2]
        simp
      rw [h1, replaceAll_skip _ _ p _ (forall_head hmem),
        replaceAll_cons_neg _ _ _ _ hpre,
        replaceAll_skip _ _ ('i' :: 'n' :: 'd' :: 'e' :: 'x' :: ']' :: []) _ (by decide),
        ih (forall_tail hmem)]

theorem replaceAll_index_joinWith (rep : Str) :
    ∀ (parts : List Str), (∀ q ∈ parts, '[' ∉ q) →
      replaceAll indexTok rep (joinWith indexTok parts) = joinWith rep parts := by
  intro parts
  induction parts with
  | nil => intro _; rfl
  | cons p ps ih =>
    intro hmem
    cases ps with
    | nil =>
      rw [indexTok_cons]
      exact replaceAll_id_of_not_mem _ _ p (forall_head hmem)
    | cons q rest =>
      rw [joinWith_cons_cons, List.append_assoc]
      rw [show indexTok = '[' :: ('i' :: 'n' :: 'd' :: 'e' :: 'x' :: ']' :: []) from rfl,
        replaceAll_skip _ _ p _ (forall_head hmem),
        show ('[' :: ('i' :: 'n' :: 'd' :: 'e' :: 'x' :: ']' :: []) : Str) = indexTok from rfl,
        replaceAll_match _ _ _ (by decide), ih (forall_tail hmem),
        joinWith_cons_cons, List.append_assoc]

theorem dropOneSep_joinWith (q : Str) (rest : List Str) :
    dropOneSep (joinWith indexTok (q :: rest)) = joinWith indexTok (dropOneSep q :: rest) := by
  cases rest with
  | nil => rfl
  | cons r rs =>
    cases q with
    | nil =>
      rw [joinWith_cons_cons, joinWith_cons_cons]
      simp only [List.nil_append, dropOneSep]
      rw [indexTok_cons, List.cons_append]
      simp [dropOneSep, show isIndexSep '[' = false from rfl]
    | cons d ds =>
      rw [joinWith_cons_cons, joinWith_cons_cons]
      by_cases hsep : isIndexSep d = true <;>
        simp [dropOneSep, hsep, List.cons_append, List.append_assoc]

theorem not_mem_dropOneSep {q : Str} (h : '[' ∉ q) : '[' ∉ dropOneSep q := by
  cases q with
  | nil => exact h
  | cons d ds =>
    by_cases hsep : isIndexSep d = true
    · simp only [dropOneSep, hsep, if_true]
      exact not_mem_of_cons h
    · simp only [dropOneSep, hsep, if_false]
      exact h

theorem stripIndexSep_joinWith :
    ∀ (ps : List Str) (p : Str), (∀ q ∈ ps, '[' ∉ q) → '[' ∉ p →
      stripIndexSep (joinWith indexTok (p :: ps)) = p ++ (ps.map dropOneSep).flatten := by
  intro ps
  induction ps with
  | nil =>
    intro p _ hp
    simp [joinWith, stripIndexSep_id_of_not_mem p hp]
  | cons q rest ih =>
    intro p hmem hp
    rw [joinWith_cons_cons, List.append_assoc, stripIndexSep_skip _ _ hp, stripIndexSep_match,
      dropOneSep_joinWith,
      ih (dropOneSep q) (forall_tail hmem) (not_mem_dropOneSep (forall_head hmem))]
    simp [List.append_assoc]

theorem nameTok_cons : nameTok = '[' :: 'n' :: 'a' :: 'm' :: 'e' :: ']' :: [] := rfl
theorem extTok_cons : extTok = '[' :: 'e' :: 'x' :: 't' :: ']' :: [] := rfl
theorem fullTok_cons : fullTok = '[' :: 'f' :: 'u' :: 'l' :: 'l' :: ']' :: [] := rfl

theorem expandFileToks_joinWith (parts : List Str) (file : ProgramFile)
    (h : ∀ q ∈ parts, '[' ∉ q) :
    expandFileToks (joinWith indexTok parts) file = joinWith indexTok parts := by
  unfold expandFileToks
  rw [nameTok_cons, replaceAll_other_joinWith 'n' _ _ (by decide) parts h,
    extTok_cons, replaceAll_other_joinWith 'e' _ _ (by decide) parts h,
    fullTok_cons, replaceAll_other_joinWith 'f' _ _ (by decide) parts h]

theorem formatName_eq (cfg : NamingConfig) (pattern : Str) (file : ProgramFile) (index : Nat) :
    formatName cfg pattern file index =
      if cfg.numberingEnabled then
        replaceAll indexTok (intStr (cfg.startIndex + index)) (expandFileToks pattern file)
      else stripIndexSep (expandFileToks pattern file) := rfl

theorem formatName_joinWith_split :
    ∀ (p : Str) (ps : List Str) (file : ProgramFile) (i : Nat) (st : Int),
      '[' ∉ p → (∀ q ∈ ps, '[' ∉ q) →
      formatName ⟨st, true⟩ (joinWith indexTok (p :: ps)) file i =
        joinWith (intStr (st + i)) (p :: ps) ∧
      formatName ⟨st, false⟩ (joinWith indexTok (p :: ps)) file i =
        p ++ (ps.map dropOneSep).flatten := by
  intro p ps file i st hp hps
  have hall : ∀ q ∈ p :: ps, '[' ∉ q := by
    intro q hq
    rcases List.mem_cons.mp hq with h | h
    · subst h; exact hp
    · exact hps q h
  constructor
  · rw [formatName_eq, if_pos rfl]
    rw [expandFileToks_joinWith _ _ hall,
      replaceAll_index_joinWith _ _ hall]
  · rw [formatName_eq, if_neg Bool.false_ne_true]
    rw [expandFileToks_joinWith _ _ hall,
      stripIndexSep_joinWith ps p hps hp]

theorem splitChar_ne_nil (c : Char) : ∀ s : Str, splitChar c s ≠ [] := by
  intro s
  cases s with
  | nil => simp [splitChar]
  | cons d ds =>
    simp only [splitChar]
    by_cases h : d = c
    · rw [if_pos h]
      exact List.cons_ne_nil _ _
    · rw [if_neg h]
      cases splitChar c ds <;> simp

theorem splitChar_of_not_mem (c : Char) : ∀ s : Str, c ∉ s → splitChar c s = [s] := by
  intro s
  induction s with
  | nil => intro _; rfl
  | cons d ds ih =>
    intro h
    have hd : d ≠ c := fun he => h (by rw [← he]; exact List.mem_cons_self _ _)
    have hds : c ∉ ds := fun hm => h (List.mem_cons_of_mem _ hm)
    simp only [splitChar, hd, if_false, ih hds]

theorem splitChar_length_ge_two (c : Char) : ∀ s : Str, c ∈ s → 2 ≤ (splitChar c s).length := by
  intro s
  induction s with
  | nil => intro h; cases h
  | cons d ds ih =>
    intro h
    simp only [splitChar]
    by_cases hd : d = c
    · rw [if_pos hd]
      have h1 : splitChar c ds ≠ [] := splitChar_ne_nil c ds
      have h2 : 1 ≤ (splitChar c ds).length := List.length_pos.mpr h1
      simp only [List.length_cons]
      omega
    · have hds : c ∈ ds := by
        rcases List.mem_cons.mp h with h1 | h1
        · exact absurd h1.symm hd
        · exact h1
      specialize ih hds
      rw [if_neg hd]
      cases hsp : splitChar c ds with
      | nil => exact absurd hsp (splitChar_ne_nil c ds)
      | cons hh tt =>
        rw [hsp] at ih
        simpa using ih

theorem getLastD_irrel {t : List Str} (h : t ≠ []) (x y : Str) :
    t.getLastD x = t.getLastD y := by
  cases t with
  | nil => exact absurd rfl h
  | cons a l => rw [List.getLastD_cons, List.getLastD_cons]

theorem lastIndexOf_nonneg_iff (c : Char) : ∀ l : Str, 0 ≤ lastIndexOf c l ↔ c ∈ l := by
  intro l
  induction l with
  | nil => simp [lastIndexOf]
  | cons d ds ih =>
    simp only [lastIndexOf]
    by_cases hr : lastIndexOf c ds ≥ 0
    · rw [if_pos hr]
      constructor
      · intro _
        exact List.mem_cons_of_mem _ (ih.mp hr)
      · intro _
        omega
    · rw [if_neg hr]
      by_cases hd : d = c
      · rw [if_pos hd]
        constructor
        · intro _
          rw [← hd]
          exact List.mem_cons_self _ _
        · intro _
          omega
      · rw [if_neg hd]
        constructor
        · intro hx
          exact absurd hx (by omega)
        · intro hx
          rcases List.mem_cons.mp hx with h1 | h1
          · exact absurd h1.symm hd
          · exact absurd ((ih.mpr h1)) hr

theorem extOf_eq :
    ∀ name : Str, extOf name =
      if '.' ∈ name then name.drop ((lastIndexOf '.' name).toNat + 1) else name := by
  intro name
  induction name with
  | nil => simp [extOf, splitChar]
  | cons c cs ih =>
    by_cases hc : c = '.'
    · subst hc
      have h1 : extOf ('.' :: cs) = extOf cs := by
        show List.getLastD (splitChar '.' ('.' :: cs)) [] = _
        have hs : splitChar '.' ('.' :: cs) = [] :: splitChar '.' cs := by
          simp [splitChar]
        rw [hs, List.getLastD_cons]
        rfl
      rw [h1, ih]
      rw [if_pos (List.mem_cons_self _ _)]
      by_cases hcs : '.' ∈ cs
      · rw [if_pos hcs]
        have hr : lastIndexOf '.' cs ≥ 0 := (lastIndexOf_nonneg_iff _ _).mpr hcs
        have h2 : lastIndexOf '.' ('.' :: cs) = lastIndexOf '.' cs + 1 := by
          simp only [lastIndexOf]
          rw [if_pos hr]
        rw [h2, show (lastIndexOf '.' cs + 1).toNat + 1 = ((lastIndexOf '.' cs).toNat + 1) + 1 by omega,
          List.drop_succ_cons]
      · rw [if_neg hcs]
        have hr : ¬ lastIndexOf '.' cs ≥ 0 := fun h => hcs ((lastIndexOf_nonneg_iff _ _).mp h)
        have h2 : lastIndexOf '.' ('.' :: cs) = 0 := by
          simp only [lastIndexOf]
          rw [if_neg hr]
          simp
        rw [h2]
        rfl
    · by_cases hcs : '.' ∈ cs
      · have h1 : extOf (c :: cs) = extOf cs := by
          show List.getLastD (splitChar '.' (c :: cs)) [] = List.getLastD (splitChar '.' cs) []
          simp only [splitChar, if_neg hc]
          cases hsp : splitChar '.' cs with
          | nil => exact absurd hsp (splitChar_ne_nil _ _)
          | cons hh tt =>
            have htt : tt ≠ [] := by
              have hlen := splitChar_length_ge_two '.' cs hcs
              rw [hsp] at hlen
              simp only [List.length_cons] at hlen
              intro he
              subst he
              simp at hlen
            rw [List.getLastD_cons, List.getLastD_cons]
            exact getLastD_irrel htt _ _
        rw [h1, ih, if_pos hcs, if_pos (List.mem_cons_of_mem _ hcs)]
        have hr : lastIndexOf '.' cs ≥ 0 := (lastIndexOf_nonneg_iff _ _).mpr hcs
        have h2 : lastIndexOf '.' (c :: cs) = lastIndexOf '.' cs + 1 := by
          simp only [lastIndexOf]
          rw [if_pos hr]
        rw [h2, show (lastIndexOf '.' cs + 1).toNat + 1 = ((lastIndexOf '.' cs).toNat + 1) + 1 by omega,
          List.drop_succ_cons]
      · have hnm : '.' ∉ c :: cs := by
          intro h
          rcases List.mem_cons.mp h with h1 | h1
          · exact hc h1.symm
          · exact hcs h1
        rw [if_neg hnm]
        show List.getLastD (splitChar '.' (c :: cs)) [] = c :: cs
        rw [splitChar_of_not_mem _ _ hnm]
        rfl

theorem not_mem_extOf {name : Str} (h : '[' ∉ name) : '[' ∉ extOf name := by
  rw [extOf_eq]
  by_cases hd : '.' ∈ name
  · rw [if_pos hd]
    intro hm
    exact h (List.drop_subset _ _ hm)
  · rw [if_neg hd]
    exact h

theorem replaceAll_self (tok rep : Str) (h : tok ≠ []) : replaceAll tok rep tok = rep := by
  have h1 := replaceAll_match tok rep [] h
  rw [List.append_nil] at h1
  rw [h1, replaceAll_nil, List.append_nil]

theorem formatName_ext (file : ProgramFile) (i : Nat) (cfg : NamingConfig)
    (h : '[' ∉ file.name) :
    formatName cfg extTok file i = extOf file.name := by
  have hext : '[' ∉ extOf file.name := not_mem_extOf h
  have hstep : expandFileToks extTok file = extOf file.name := by
    unfold expandFileToks
    rw [replaceAll_of_occursIn_eq_false nameTok _ extTok (by decide),
      replaceAll_self extTok _ (by decide),
      fullTok_cons, replaceAll_id_of_not_mem _ _ _ hext]
  rw [formatName_eq, hstep]
  by_cases hb : cfg.numberingEnabled = true
  · rw [if_pos hb, indexTok_cons, replaceAll_id_of_not_mem _ _ _ hext]
  · rw [if_neg hb, stripIndexSep_id_of_not_mem _ hext]

/-- C8 amended: for filenames free of the dollar character (so that the
modelled expansion is the one the program computes), when the pattern
expansion after the [name], [ext] and [full] substitutions contains no
[index] occurrence, the resulting name is independent of the index, the
start index, and the numbering flag. -/
theorem formatName_no_index_independent :
    ∀ (pattern : Str) (file : ProgramFile) (i j : Nat) (st su : Int) (b c : Bool),
      '$' ∉ file.name →
      occursIn indexTok (expandFileToks pattern file) = false →
      formatName ⟨st, b⟩ pattern file i = formatName ⟨su, c⟩ pattern file j := by
  intro pattern file i j st su b c hds h
  have hid : ∀ (r : Str), replaceAll indexTok r (expandFileToks pattern file) =
      expandFileToks pattern file :=
    fun r => replaceAll_of_occursIn_eq_false _ _ _ h
  have hstrip := stripIndexSep_of_occursIn_eq_false _ h
  cases b <;> cases c <;>
    simp [formatName_eq, hid, hstrip]

theorem genLoop_calls_le (remote : Nat → Except JsError Str) (isHtml : Bool) :
    ∀ l : List Nat, (genLoop remote isHtml l).2.1 ≤ l.length := by
  intro l
  induction l with
  | nil => simp [genLoop]
  | cons a rest ih =>
    simp only [genLoop, List.length_cons]
    cases hra : remote a with
    | ok t => simp
    | error e =>
      dsimp only
      by_cases hc : isRateLimited e = false ∨ a = maxAttempts
      · rw [if_pos hc]
        simp
      · rw [if_neg hc]
        simp only []
        omega

theorem genLoop_head_ok (remote : Nat → Except JsError Str) (isHtml : Bool)
    (a : Nat) (rest : List Nat) (t : Str) (h : remote a = Except.ok t) (ht : t ≠ []) :
    genLoop remote isHtml (a :: rest) = (GenRes.ok t, 1, []) := by
  simp only [genLoop, h]
  rw [if_neg ht]

theorem genLoop_head_retry (remote : Nat → Except JsError Str) (isHtml : Bool)
    (a : Nat) (rest : List Nat) (e : JsError) (h : remote a = Except.error e)
    (hrl : isRateLimited e = true) (ha : a ≠ maxAttempts) :
    genLoop remote isHtml (a :: rest) =
      ((genLoop remote isHtml rest).1, (genLoop remote isHtml rest).2.1 + 1,
        (1500 * 2 ^ (a - 1)) :: (genLoop remote isHtml rest).2.2) := by
  simp only [genLoop, h]
  rw [if_neg (by simp [hrl, ha])]

theorem genLoop_head_throw (remote : Nat → Except JsError Str) (isHtml : Bool)
    (a : Nat) (rest : List Nat) (e : JsError) (h : remote a = Except.error e)
    (hc : isRateLimited e = false ∨ a = maxAttempts) :
    genLoop remote isHtml (a :: rest) = (GenRes.thrown e, 1, []) := by
  simp only [genLoop, h]
  rw [if_pos hc]

theorem generateOutput_of_genLoop_ok (isHtml : Bool) (remote : Nat → Except JsError Str)
    (t : Str) (n : Nat) (ds : List Nat)
    (h : genLoop remote isHtml attemptSeq = (GenRes.ok t, n, ds)) :
    generateOutput isHtml remote = (t, n, ds) := by
  unfold generateOutput
  rw [h]

theorem generateOutput_of_genLoop_thrown (isHtml : Bool) (remote : Nat → Except JsError Str)
    (e : JsError) (n : Nat) (ds : List Nat)
    (h : genLoop remote isHtml attemptSeq = (GenRes.thrown e, n, ds)) :
    generateOutput isHtml remote =
      (if getErrorStatus e = some 429 ∨ occursIn tokResourceExhausted e.strForm then rateLimitMsg
       else genericErrMsg, n, ds) := by
  unfold generateOutput
  rw [h]

theorem generateOutput_calls (isHtml : Bool) (remote : Nat → Except JsError Str) :
    (generateOutput isHtml remote).2.1 = (genLoop remote isHtml attemptSeq).2.1 := by
  unfold generateOutput
  rcases hg : genLoop remote isHtml attemptSeq with ⟨r, n, ds⟩
  cases r <;> simp

theorem outer_false_of_not_rl {e : JsError} (h : isRateLimited e = false) :
    ¬ (getErrorStatus e = some 429 ∨ occursIn tokResourceExhausted e.strForm = true) := by
  intro hx
  simp only [isRateLimited, Bool.or_eq_false_iff, beq_eq_false_iff_ne, ne_eq] at h
  rcases hx with hx | hx
  · exact h.1.1 hx
  · rw [hx] at h
    exact absurd h.2 (by decide)

theorem map_update_comp (st : List ProgramFile) (fid : Nat)
    (g1 g2 : ProgramFile → ProgramFile) (hid : ∀ f, (g1 f).id = f.id) :
    (st.map (fun f => if f.id = fid then g1 f else f)).map
        (fun f => if f.id = fid then g2 f else f) =
      st.map (fun f => if f.id = fid then g2 (g1 f) else f) := by
  rw [List.map_map]
  refine List.map_congr_left ?_
  intro f _
  dsimp only [Function.comp]
  by_cases h : f.id = fid
  · have h1 : (if f.id = fid then g1 f else f) = g1 f := if_pos h
    rw [h1, hid f, if_pos h, if_pos h]
  · have h1 : (if f.id = fid then g1 f else f) = f := if_neg h
    rw [h1, if_neg h, if_neg h]

theorem processSingleFile_no_ref (env : BatchEnv) (snapshot st : List ProgramFile)
    (fid : Nat) (file : ProgramFile)
    (hfind : snapshot.find? (fun f => f.id == fid) = some file)
    (href : env.hasRef fid = false) :
    processSingleFile env snapshot st fid =
      (st.map (fun f => if f.id = fid then
          { f with
            output := some ((generateOutput (file.language == htmlTag) (env.remote fid)).1),
            status := FileStatus.completed }
        else f),
       ⟨(generateOutput (file.language == htmlTag) (env.remote fid)).2.1, 0,
        (generateOutput (file.language == htmlTag) (env.remote fid)).2.2, [fid]⟩) := by
  unfold processSingleFile
  rw [hfind]
  dsimp only
  rw [href]
  rw [if_neg (by decide)]
  congr 1
  rw [List.map_map]
  refine List.map_congr_left ?_
  intro f _
  by_cases h : f.id = fid
  · simp [Function.comp, h]
  · simp [Function.comp, h]

theorem processSingleFile_capture_ok (env : BatchEnv) (snapshot st : List ProgramFile)
    (fid : Nat) (file : ProgramFile) (b : Nat)
    (hfind : snapshot.find? (fun f => f.id == fid) = some file)
    (href : env.hasRef fid = true)
    (hcap : env.capture fid = Except.ok b) :
    processSingleFile env snapshot st fid =
      (st.map (fun f => if f.id = fid then
          { f with
            output := some ((generateOutput (file.language == htmlTag) (env.remote fid)).1),
            status := FileStatus.completed,
            imageBlob := some b }
        else f),
       ⟨(generateOutput (file.language == htmlTag) (env.remote fid)).2.1, 1,
        (generateOutput (file.language == htmlTag) (env.remote fid)).2.2, [fid]⟩) := by
  unfold processSingleFile
  rw [hfind]
  dsimp only
  rw [href]
  rw [if_pos rfl, hcap]
  dsimp only
  congr 1
  rw [List.map_map, List.map_map]
  refine List.map_congr_left ?_
  intro f _
  by_cases h : f.id = fid
  · simp [Function.comp, h]
  · simp [Function.comp, h]

theorem processSingleFile_capture_err (env : BatchEnv) (snapshot st : List ProgramFile)
    (fid : Nat) (file : ProgramFile) (u : Unit)
    (hfind : snapshot.find? (fun f => f.id == fid) = some file)
    (href : env.hasRef fid = true)
    (hcap : env.capture fid = Except.error u) :
    processSingleFile env snapshot st fid =
      (st.map (fun f => if f.id = fid then
          { f with
            output := some ((generateOutput (file.language == htmlTag) (env.remote fid)).1),
            status := FileStatus.error }
        else f),
       ⟨(generateOutput (file.language == htmlTag) (env.remote fid)).2.1, 1,
        (generateOutput (file.language == htmlTag) (env.remote fid)).2.2, [fid]⟩) := by
  unfold processSingleFile
  rw [hfind]
  dsimp only
  rw [href]
  rw [if_pos rfl, hcap]
  dsimp only
  congr 1
  rw [List.map_map, List.map_map]
  refine List.map_congr_left ?_
  intro f _
  by_cases h : f.id = fid
  · simp [Function.comp, h]
  · simp [Function.comp, h]

theorem generateOutput_first_ok (isHtml : Bool) (remote : Nat → Except JsError Str)
    (t : Str) (h : remote 1 = Except.ok t) (ht : t ≠ []) :
    generateOutput isHtml remote = (t, 1, []) :=
  generateOutput_of_genLoop_ok _ _ _ _ _ (genLoop_head_ok _ _ _ _ _ h ht)

theorem processSingleFile_processedIds (env : BatchEnv) (snapshot st : List ProgramFile)
    (fid : Nat) :
    (processSingleFile env snapshot st fid).2.processedIds = [fid] := by
  unfold processSingleFile
  cases hf : snapshot.find? (fun f => f.id == fid) with
  | none => rfl
  | some file =>
    dsimp only
    by_cases href : env.hasRef fid = true
    · rw [if_pos href]
      cases hcap : env.capture fid with
      | ok b => rfl
      | error u => rfl
    · rw [if_neg href]

theorem runQueue_processedIds (env : BatchEnv) (snapshot : List ProgramFile) :
    ∀ (q : List Nat) (st : List ProgramFile),
      (runQueue env snapshot q st).2.processedIds = q := by
  intro q
  induction q with
  | nil => intro st; rfl
  | cons fid rest ih =>
    intro st
    simp only [runQueue, Trace.app]
    rw [processSingleFile_processedIds, ih]
    rfl

theorem itemResult_id (env : BatchEnv) (T : Nat → Str) (f : ProgramFile) :
    (itemResult env T f).id = f.id := by
  unfold itemResult
  cases env.capture f.id <;> rfl

theorem find?_eq_of_nodup :
    ∀ (files : List ProgramFile), (files.map (fun f => f.id)).Nodup →
      ∀ f ∈ files, files.find? (fun g => g.id == f.id) = some f := by
  intro files
  induction files with
  | nil =>
    intro _ f hf
    cases hf
  | cons a rest ih =>
    intro hnd f hf
    rw [List.map_cons, List.nodup_cons] at hnd
    rcases List.mem_cons.mp hf with h | h
    · subst h
      exact List.find?_cons_of_pos _ (by simp)
    · have hne : a.id ≠ f.id := by
        intro he
        exact hnd.1 (he ▸ List.mem_map_of_mem (fun f => f.id) h)
      rw [List.find?_cons_of_neg _ (by simp [hne])]
      exact ih hnd.2 f h

theorem runQueue_itemResult (env : BatchEnv) (snapshot : List ProgramFile) (T : Nat → Str)
    (href : ∀ fid, env.hasRef fid = true) :
    ∀ (q : List Nat) (st : List ProgramFile),
      q.Nodup →
      (∀ fid ∈ q, ∃ file, snapshot.find? (fun g => g.id == fid) = some file ∧
        env.remote fid 1 = Except.ok (T fid) ∧ T fid ≠ []) →
      (runQueue env snapshot q st).1 =
        st.map (fun f => if f.id ∈ q then itemResult env T f else f) := by
  intro q
  induction q with
  | nil =>
    intro st _ _
    simp [runQueue]
  | cons fid rest ih =>
    intro st hnd hq
    obtain ⟨file, hfind, hrem, hne⟩ := hq fid (List.mem_cons_self _ _)
    rw [List.nodup_cons] at hnd
    have hgen : generateOutput (file.language == htmlTag) (env.remote fid) = (T fid, 1, []) :=
      generateOutput_first_ok _ _ _ hrem hne
    have hstep : (processSingleFile env snapshot st fid).1 =
        st.map (fun f => if f.id = fid then itemResult env T f else f) := by
      cases hcap : env.capture fid with
      | ok b =>
        rw [processSingleFile_capture_ok env snapshot st fid file b hfind (href fid) hcap]
        dsimp only
        refine List.map_congr_left ?_
        intro f _
        by_cases h : f.id = fid
        · rw [if_pos h, if_pos h]
          simp [itemResult, h, hcap, hgen]
        · rw [if_neg h, if_neg h]
      | error u =>
        rw [processSingleFile_capture_err env snapshot st fid file u hfind (href fid) hcap]
        dsimp only
        refine List.map_congr_left ?_
        intro f _
        by_cases h : f.id = fid
        · rw [if_pos h, if_pos h]
          simp [itemResult, h, hcap, hgen]
        · rw [if_neg h, if_neg h]
    simp only [runQueue]
    rw [hstep, ih _ hnd.2 (fun x hx => hq x (List.mem_cons_of_mem _ hx)), List.map_map]
    refine List.map_congr_left ?_
    intro f _
    dsimp only [Function.comp]
    by_cases h : f.id = fid
    · rw [if_pos h]
      have hnotin : (itemResult env T f).id ∉ rest := by
        rw [itemResult_id, h]
        exact hnd.1
      rw [if_neg hnotin, if_pos (by rw [h]; exact List.mem_cons_self _ _)]
    · rw [if_neg h]
      by_cases hm : f.id ∈ rest
      · rw [if_pos hm, if_pos (List.mem_cons_of_mem _ hm)]
      · rw [if_neg hm, if_neg (by
          intro hx
          rcases List.mem_cons.mp hx with h1 | h1
          · exact h h1
          · exact hm h1)]

theorem genLoop_head_ok_general (remote : Nat → Except JsError Str) (isHtml : Bool)
    (a : Nat) (rest : List Nat) (t : Str) (h : remote a = Except.ok t) :
    genLoop remote isHtml (a :: rest) =
      (GenRes.ok (if t = [] then dfltText isHtml else t), 1, []) := by
  simp only [genLoop, h]

theorem genLoop_cases (remote : Nat → Except JsError Str) (isHtml : Bool) :
    ∀ l : List Nat,
      (∃ e, (genLoop remote isHtml l).1 = GenRes.thrown e) ∨
      (∃ a t, a ∈ l ∧ remote a = Except.ok t ∧
        (genLoop remote isHtml l).1 = GenRes.ok (if t = [] then dfltText isHtml else t)) ∨
      (genLoop remote isHtml l).1 = GenRes.ok (dfltText isHtml) := by
  intro l
  induction l with
  | nil =>
    right; right
    rfl
  | cons a rest ih =>
    cases hra : remote a with
    | ok t =>
      right; left
      refine ⟨a, t, List.mem_cons_self _ _, hra, ?_⟩
      rw [genLoop_head_ok_general _ _ _ _ _ hra]
    | error e =>
      by_cases hc : isRateLimited e = false ∨ a = maxAttempts
      · left
        exact ⟨e, by rw [genLoop_head_throw _ _ _ _ _ hra hc]⟩
      · have hrl : isRateLimited e = true := by
          rcases Bool.eq_false_or_eq_true (isRateLimited e) with h1 | h1
          · exact h1
          · exact absurd (Or.inl h1) hc
        have ha : a ≠ maxAttempts := fun h1 => hc (Or.inr h1)
        rcases ih with ⟨e2, h2⟩ | ⟨a2, t2, hm, hr2, h2⟩ | h2
        · left
          exact ⟨e2, by rw [genLoop_head_retry _ _ _ _ _ hra hrl ha]; exact h2⟩
        · right; left
          exact ⟨a2, t2, List.mem_cons_of_mem _ hm, hr2,
            by rw [genLoop_head_retry _ _ _ _ _ hra hrl ha]; exact h2⟩
        · right; right
          rw [genLoop_head_retry _ _ _ _ _ hra hrl ha]
          exact h2

theorem generateOutput_resolution (isHtml : Bool) (remote : Nat → Except JsError Str) :
    (generateOutput isHtml remote).1 = rateLimitMsg ∨
    (generateOutput isHtml remote).1 = genericErrMsg ∨
    (∃ a t, a ∈ attemptSeq ∧ remote a = Except.ok t ∧
      (generateOutput isHtml remote).1 = (if t = [] then dfltText isHtml else t)) ∨
    (generateOutput isHtml remote).1 = dfltText isHtml := by
  rcases hg : genLoop remote isHtml attemptSeq with ⟨r, n, ds⟩
  rcases genLoop_cases remote isHtml attemptSeq with ⟨e, h⟩ | ⟨a, t, hm, hr, h⟩ | h
  · rw [hg] at h
    simp only at h
    subst h
    rw [generateOutput_of_genLoop_thrown isHtml remote e n ds hg]
    by_cases houter : getErrorStatus e = some 429 ∨ occursIn tokResourceExhausted e.strForm = true
    · left
      rw [if_pos houter]
    · right; left
      rw [if_neg houter]
  · rw [hg] at h
    simp only at h
    subst h
    right; right; left
    exact ⟨a, t, hm, hr, by rw [generateOutput_of_genLoop_ok isHtml remote _ n ds hg]⟩
  · rw [hg] at h
    simp only at h
    subst h
    right; right; right
    rw [generateOutput_of_genLoop_ok isHtml remote _ n ds hg]

/-- C1: the retry policy around the remote output call makes at most 4
attempts; when attempts 1..k-1 fail rate-limited and attempt k succeeds
with nonempty text, the text is returned after exactly k remote calls
with backoff delays 1500·2^0, …, 1500·2^(k-2) ms (1.5s, 3s, 6s before
attempts 2, 3, 4). -/
theorem generateOutput_retry_policy :
    (∀ (isHtml : Bool) (remote : Nat → Except JsError Str),
      (generateOutput isHtml remote).2.1 ≤ 4) ∧
    (∀ (isHtml : Bool) (remote : Nat → Except JsError Str) (k : Nat) (t : Str),
      1 ≤ k → k ≤ 4 →
      (∀ j, 1 ≤ j → j < k → ∃ e, remote j = Except.error e ∧ isRateLimited e = true) →
      remote k = Except.ok t → t ≠ [] →
      generateOutput isHtml remote =
        (t, k, (List.range (k - 1)).map (fun j => 1500 * 2 ^ j))) := by
  constructor
  · intro isHtml remote
    rw [generateOutput_calls]
    exact genLoop_calls_le remote isHtml attemptSeq
  · intro isHtml remote k t hk1 hk4 hj hk ht
    interval_cases k
    · rw [generateOutput_first_ok isHtml remote t hk ht]
      rfl
    · obtain ⟨e1, he1, hr1⟩ := hj 1 (by omega) (by omega)
      have g2 : genLoop remote isHtml [2, 3, 4] = (GenRes.ok t, 1, []) :=
        genLoop_head_ok _ _ _ _ _ hk ht
      have g1 : genLoop remote isHtml attemptSeq = (GenRes.ok t, 2, [1500 * 2 ^ 0]) := by
        show genLoop remote isHtml (1 :: [2, 3, 4]) = _
        rw [genLoop_head_retry _ _ _ _ _ he1 hr1 (by decide), g2]
      rw [generateOutput_of_genLoop_ok _ _ _ _ _ g1]
      rfl
    · obtain ⟨e1, he1, hr1⟩ := hj 1 (by omega) (by omega)
      obtain ⟨e2, he2, hr2⟩ := hj 2 (by omega) (by omega)
      have g3 : genLoop remote isHtml [3, 4] = (GenRes.ok t, 1, []) :=
        genLoop_head_ok _ _ _ _ _ hk ht
      have g2 : genLoop remote isHtml [2, 3, 4] = (GenRes.ok t, 2, [1500 * 2 ^ 1]) := by
        rw [genLoop_head_retry _ _ _ _ _ he2 hr2 (by decide), g3]
      have g1 : genLoop remote isHtml attemptSeq =
          (GenRes.ok t, 3, [1500 * 2 ^ 0, 1500 * 2 ^ 1]) := by
        show genLoop remote isHtml (1 :: [2, 3, 4]) = _
        rw [genLoop_head_retry _ _ _ _ _ he1 hr1 (by decide), g2]
      rw [generateOutput_of_genLoop_ok _ _ _ _ _ g1]
      rfl
    · obtain ⟨e1, he1, hr1⟩ := hj 1 (by omega) (by omega)
      obtain ⟨e2, he2, hr2⟩ := hj 2 (by omega) (by omega)
      obtain ⟨e3, he3, hr3⟩ := hj 3 (by omega) (by omega)
      have g4 : genLoop remote isHtml [4] = (GenRes.ok t, 1, []) :=
        genLoop_head_ok _ _ _ _ _ hk ht
      have g3 : genLoop remote isHtml [3, 4] = (GenRes.ok t, 2, [1500 * 2 ^ 2]) := by
        rw [genLoop_head_retry _ _ _ _ _ he3 hr3 (by decide), g4]
      have g2 : genLoop remote isHtml [2, 3, 4] =
          (GenRes.ok t, 3, [1500 * 2 ^ 1, 1500 * 2 ^ 2]) := by
        rw [genLoop_head_retry _ _ _ _ _ he2 hr2 (by decide), g3]
      have g1 : genLoop remote isHtml attemptSeq =
          (GenRes.ok t, 4, [1500 * 2 ^ 0, 1500 * 2 ^ 1, 1500 * 2 ^ 2]) := by
        show genLoop remote isHtml (1 :: [2, 3, 4]) = _
        rw [genLoop_head_retry _ _ _ _ _ he1 hr1 (by decide), g2]
      rw [generateOutput_of_genLoop_ok _ _ _ _ _ g1]
      rfl

/-- Witness for C1 at a concrete remote: three numeric-429 failures, then
success on attempt 4 with delays 1.5s, 3s, 6s. -/
theorem generateOutput_retry_policy_witness :
    (∀ j, 1 ≤ j → j < 4 → ∃ e, remoteW j = Except.error e ∧ isRateLimited e = true) ∧
    remoteW 4 = Except.ok outW ∧ outW ≠ [] ∧
    generateOutput false remoteW = (outW, 4, [1500, 3000, 6000]) := by
  have hj : ∀ j, 1 ≤ j → j < 4 → ∃ e, remoteW j = Except.error e ∧ isRateLimited e = true := by
    intro j hj1 hj4
    refine ⟨err429W, ?_, by decide⟩
    show (if j ≤ 3 then Except.error err429W else Except.ok outW) = _
    rw [if_pos (by omega)]
  have hk : remoteW 4 = Except.ok outW := by
    show (if 4 ≤ 3 then Except.error err429W else Except.ok outW) = _
    rw [if_neg (by omega)]
  have happ := (generateOutput_retry_policy).2 false remoteW 4 outW (by omega) (by omega)
    hj hk (by decide)
  refine ⟨hj, hk, by decide, ?_⟩
  rw [happ]
  decide

/-- C2 counterexample: an error whose only rate-limit marker is the
substring "429" in its string form is retried to exhaustion (4 attempts,
full backoff), yet the outer catch — which tests only the numeric status
and the "RESOURCE_EXHAUSTED" marker — substitutes the generic diagnostic,
not the rate-limit diagnostic the claim prescribes. -/
theorem generateOutput_str429_generic_cex :
    isRateLimited errStr429 = true ∧
    generateOutput false remote429Str = (genericErrMsg, 4, [1500, 3000, 6000]) ∧
    genericErrMsg ≠ rateLimitMsg := by
  refine ⟨by decide, by decide, by decide⟩

/-- C2 amended: when all 4 attempts fail rate-limited, the resolved output
is the rate-limit diagnostic exactly when the final error has numeric
status 429 or carries the "RESOURCE_EXHAUSTED" marker, and the generic
diagnostic otherwise; every execution resolves to a diagnostic string or
(possibly defaulted) response text, never an exception; and right after
generation the orchestrator marks the item COMPLETED with the resolved
text attached. -/
theorem generateOutput_exhausted_diag :
    (∀ (isHtml : Bool) (remote : Nat → Except JsError Str) (e4 : JsError),
      (∀ j, 1 ≤ j → j ≤ 3 → ∃ e, remote j = Except.error e ∧ isRateLimited e = true) →
      remote 4 = Except.error e4 → isRateLimited e4 = true →
      generateOutput isHtml remote =
        (if getErrorStatus e4 = some 429 ∨ occursIn tokResourceExhausted e4.strForm = true
          then rateLimitMsg else genericErrMsg, 4,
         [1500 * 2 ^ 0, 1500 * 2 ^ 1, 1500 * 2 ^ 2])) ∧
    (∀ (isHtml : Bool) (remote : Nat → Except JsError Str),
      (generateOutput isHtml remote).1 = rateLimitMsg ∨
      (generateOutput isHtml remote).1 = genericErrMsg ∨
      (∃ a t, a ∈ attemptSeq ∧ remote a = Except.ok t ∧
        (generateOutput isHtml remote).1 = (if t = [] then dfltText isHtml else t)) ∨
      (generateOutput isHtml remote).1 = dfltText isHtml) ∧
    (∀ (env : BatchEnv) (snapshot st : List ProgramFile) (fid : Nat) (file : ProgramFile),
      snapshot.find? (fun f => f.id == fid) = some file →
      env.hasRef fid = false →
      processSingleFile env snapshot st fid =
        (st.map (fun f => if f.id = fid then
            { f with
              output := some ((generateOutput (file.language == htmlTag) (env.remote fid)).1),
              status := FileStatus.completed }
          else f),
         ⟨(generateOutput (file.language == htmlTag) (env.remote fid)).2.1, 0,
          (generateOutput (file.language == htmlTag) (env.remote fid)).2.2, [fid]⟩)) := by
  refine ⟨?_, ?_, ?_⟩
  · intro isHtml remote e4 hj h4 hrl4
    obtain ⟨e1, he1, hr1⟩ := hj 1 (by omega) (by omega)
    obtain ⟨e2, he2, hr2⟩ := hj 2 (by omega) (by omega)
    obtain ⟨e3, he3, hr3⟩ := hj 3 (by omega) (by omega)
    have g4 : genLoop remote isHtml [4] = (GenRes.thrown e4, 1, []) :=
      genLoop_head_throw _ _ _ _ _ h4 (Or.inr rfl)
    have g3 : genLoop remote isHtml [3, 4] = (GenRes.thrown e4, 2, [1500 * 2 ^ 2]) := by
      rw [genLoop_head_retry _ _ _ _ _ he3 hr3 (by decide), g4]
    have g2 : genLoop remote isHtml [2, 3, 4] =
        (GenRes.thrown e4, 3, [1500 * 2 ^ 1, 1500 * 2 ^ 2]) := by
      rw [genLoop_head_retry _ _ _ _ _ he2 hr2 (by decide), g3]
    have g1 : genLoop remote isHtml attemptSeq =
        (GenRes.thrown e4, 4, [1500 * 2 ^ 0, 1500 * 2 ^ 1, 1500 * 2 ^ 2]) := by
      show genLoop remote isHtml (1 :: [2, 3, 4]) = _
      rw [genLoop_head_retry _ _ _ _ _ he1 hr1 (by decide), g2]
    exact generateOutput_of_genLoop_thrown _ _ _ _ _ g1
  · exact generateOutput_resolution
  · intro env snapshot st fid file hfind href
    exact processSingleFile_no_ref env snapshot st fid file hfind href

/-- Witness for the amended C2: a remote failing with numeric 429 on
every attempt resolves to the rate-limit diagnostic after 4 attempts. -/
theorem generateOutput_exhausted_diag_witness :
    (∀ j, 1 ≤ j → j ≤ 3 → ∃ e, remoteRL j = Except.error e ∧ isRateLimited e = true) ∧
    remoteRL 4 = Except.error err429W ∧ isRateLimited err429W = true ∧
    generateOutput false remoteRL = (rateLimitMsg, 4, [1500, 3000, 6000]) := by
  have hj : ∀ j, 1 ≤ j → j ≤ 3 → ∃ e, remoteRL j = Except.error e ∧ isRateLimited e = true :=
    fun j h1 h3 => ⟨err429W, rfl, by decide⟩
  have happ := (generateOutput_exhausted_diag).1 false remoteRL err429W hj rfl (by decide)
  refine ⟨hj, rfl, by decide, ?_⟩
  rw [happ]
  decide

/-- C3: a non-rate-limited error propagates after exactly 1 attempt with
no backoff delay; the orchestrator converts it to the generic diagnostic
and still marks the item COMPLETED. -/
theorem generateOutput_non_rate_limited :
    ∀ (isHtml : Bool) (remote : Nat → Except JsError Str) (e : JsError),
      remote 1 = Except.error e → isRateLimited e = false →
      generateOutput isHtml remote = (genericErrMsg, 1, []) ∧
      (∀ (env : BatchEnv) (snapshot st : List ProgramFile) (fid : Nat) (file : ProgramFile),
        snapshot.find? (fun f => f.id == fid) = some file →
        env.hasRef fid = false →
        env.remote fid = remote →
        (file.language == htmlTag) = isHtml →
        processSingleFile env snapshot st fid =
          (st.map (fun f => if f.id = fid then
              { f with output := some genericErrMsg, status := FileStatus.completed }
            else f),
           ⟨1, 0, [], [fid]⟩)) := by
  intro isHtml remote e h1 hrl
  have hg : genLoop remote isHtml attemptSeq = (GenRes.thrown e, 1, []) := by
    show genLoop remote isHtml (1 :: [2, 3, 4]) = _
    exact genLoop_head_throw _ _ _ _ _ h1 (Or.inl hrl)
  have hout : generateOutput isHtml remote = (genericErrMsg, 1, []) := by
    rw [generateOutput_of_genLoop_thrown _ _ _ _ _ hg, if_neg (outer_false_of_not_rl hrl)]
  refine ⟨hout, ?_⟩
  intro env snapshot st fid file hfind href hrem hlang
  rw [processSingleFile_no_ref env snapshot st fid file hfind href, hrem, hlang, hout]

/-- Witness for C3: a numeric-500 error propagates immediately and the
single-item batch ends COMPLETED with the generic diagnostic attached. -/
theorem generateOutput_non_rate_limited_witness :
    remoteOther 1 = Except.error errOther ∧ isRateLimited errOther = false ∧
    generateOutput false remoteOther = (genericErrMsg, 1, []) ∧
    processSingleFile envC3 [fileB] [fileB] 1 =
      ([({ fileB with output := some genericErrMsg, status := FileStatus.completed } : ProgramFile)],
       ⟨1, 0, [], [1]⟩) := by
  have h := generateOutput_non_rate_limited false remoteOther errOther rfl (by decide)
  refine ⟨rfl, by decide, h.1, ?_⟩
  have h2 := h.2 envC3 [fileB] [fileB] 1 fileB (by decide) rfl rfl (by decide)
  rw [h2]
  decide

/-- C4: a batch run hands to the per-item processor exactly the ids of the
files whose status is not COMPLETED, in original order; when every file is
already COMPLETED the run performs zero remote calls and zero captures and
leaves the batch unchanged. -/
theorem processAll_skips_completed :
    (∀ (env : BatchEnv) (files : List ProgramFile),
      (processAll env false files).2.processedIds =
        (files.filter (fun f => f.status != FileStatus.completed)).map (fun f => f.id)) ∧
    (∀ (env : BatchEnv) (files : List ProgramFile),
      (∀ f ∈ files, f.status = FileStatus.completed) →
      processAll env false files = (files, Trace.empty)) := by
  constructor
  · intro env files
    unfold processAll
    rw [if_neg (by decide)]
    exact runQueue_processedIds env files _ files
  · intro env files hall
    unfold processAll
    rw [if_neg (by decide)]
    have hfil : files.filter (fun f => f.status != FileStatus.completed) = [] := by
      rw [List.filter_eq_nil_iff]
      intro f hf
      simp [hall f hf]
    rw [hfil]
    rfl

/-- Witness for C4: a second run over a fully COMPLETED 2-item batch is a
no-op with an empty trace. -/
theorem processAll_skips_completed_witness :
    (∀ f ∈ [fileDoneA, fileDoneB], f.status = FileStatus.completed) ∧
    processAll envNull false [fileDoneA, fileDoneB] = ([fileDoneA, fileDoneB], Trace.empty) := by
  have hall : ∀ f ∈ [fileDoneA, fileDoneB], f.status = FileStatus.completed := by decide
  exact ⟨hall, (processAll_skips_completed).2 envNull _ hall⟩

/-- C5: when the remote call of every queued file succeeds at once and every
file has a render target, a capture throw turns exactly that item to ERROR
with its output retained, while the loop continues: every other item ends
COMPLETED with its image attached. -/
theorem processAll_capture_fault_isolated :
    ∀ (env : BatchEnv) (files : List ProgramFile) (T : Nat → Str),
      (files.map (fun f => f.id)).Nodup →
      (∀ f ∈ files, f.status ≠ FileStatus.completed) →
      (∀ fid, env.hasRef fid = true) →
      (∀ f ∈ files, env.remote f.id 1 = Except.ok (T f.id) ∧ T f.id ≠ []) →
      (processAll env false files).1 = files.map (itemResult env T) := by
  intro env files T hnd hstat href hrem
  unfold processAll
  rw [if_neg (by decide)]
  have hfil : files.filter (fun f => f.status != FileStatus.completed) = files := by
    rw [List.filter_eq_self]
    intro f hf
    simp only [bne_iff_ne, ne_eq]
    exact hstat f hf
  rw [hfil]
  rw [runQueue_itemResult env files T href (files.map (fun f => f.id)) files hnd ?hyp]
  case hyp =>
    intro fid hfid
    obtain ⟨f, hf, hfeq⟩ := List.mem_map.mp hfid
    subst hfeq
    exact ⟨f, find?_eq_of_nodup files hnd f hf, (hrem f hf).1, (hrem f hf).2⟩
  refine List.map_congr_left ?_
  intro f hf
  rw [if_pos (List.mem_map_of_mem _ hf)]

/-- Witness for C5: the 5-item batch of the specification where only the
capture of item 3 throws — items 1, 2, 4, 5 end COMPLETED with images, item 3 ends
ERROR with its output but no image. -/
theorem processAll_capture_fault_isolated_witness :
    (filesW5.map (fun f => f.id)).Nodup ∧
    (∀ f ∈ filesW5, f.status ≠ FileStatus.completed) ∧
    (∀ fid, envC5.hasRef fid = true) ∧
    (∀ f ∈ filesW5, envC5.remote f.id 1 = Except.ok outW ∧ outW ≠ ([] : Str)) ∧
    (processAll envC5 false filesW5).1 = filesW5.map (itemResult envC5 (fun _ => outW)) ∧
    (processAll envC5 false filesW5).1 =
      [⟨1, "a1.py".data, "a1.py".data, pyTag, FileStatus.completed, some outW, some 1⟩,
       ⟨2, "a2.py".data, "a2.py".data, pyTag, FileStatus.completed, some outW, some 2⟩,
       ⟨3, "a3.py".data, "a3.py".data, pyTag, FileStatus.error, some outW, none⟩,
       ⟨4, "a4.py".data, "a4.py".data, pyTag, FileStatus.completed, some outW, some 4⟩,
       ⟨5, "a5.py".data, "a5.py".data, pyTag, FileStatus.completed, some outW, some 5⟩] := by
  refine ⟨by decide, by decide, fun fid => rfl, fun f hf => ⟨rfl, by decide⟩, ?_, by decide⟩
  exact processAll_capture_fault_isolated envC5 filesW5 (fun _ => outW)
    (by decide) (by decide) (fun fid => rfl) (fun f hf => ⟨rfl, show outW ≠ [] by decide⟩)

/-- C10: when no rendered element handle is registered for the item, the
capture step is skipped entirely (zero captures) and the item stays
COMPLETED with its output attached and its image field untouched; with a
handle present and a capture that returns normally, the item also stays
COMPLETED — only a throwing capture produces ERROR. -/
theorem processSingleFile_missing_ref :
    ∀ (env : BatchEnv) (snapshot st : List ProgramFile) (fid : Nat) (file : ProgramFile),
      snapshot.find? (fun f => f.id == fid) = some file →
      (env.hasRef fid = false →
        processSingleFile env snapshot st fid =
          (st.map (fun f => if f.id = fid then
              { f with
                output := some ((generateOutput (file.language == htmlTag) (env.remote fid)).1),
                status := FileStatus.completed }
            else f),
           ⟨(generateOutput (file.language == htmlTag) (env.remote fid)).2.1, 0,
            (generateOutput (file.language == htmlTag) (env.remote fid)).2.2, [fid]⟩)) ∧
      (∀ b, env.hasRef fid = true → env.capture fid = Except.ok b →
        processSingleFile env snapshot st fid =
          (st.map (fun f => if f.id = fid then
              { f with
                output := some ((generateOutput (file.language == htmlTag) (env.remote fid)).1),
                status := FileStatus.completed,
                imageBlob := some b }
            else f),
           ⟨(generateOutput (file.language == htmlTag) (env.remote fid)).2.1, 1,
            (generateOutput (file.language == htmlTag) (env.remote fid)).2.2, [fid]⟩)) := by
  intro env snapshot st fid file hfind
  exact ⟨fun href => processSingleFile_no_ref env snapshot st fid file hfind href,
    fun b href hcap => processSingleFile_capture_ok env snapshot st fid file b hfind href hcap⟩

/-- Witness for C10: with no render target the item ends COMPLETED with
output, no capture attempted; with a target and a successful capture it
ends COMPLETED with the image. -/
theorem processSingleFile_missing_ref_witness :
    List.find? (fun f => f.id == 1) [fileB] = some fileB ∧
    envRefFree.hasRef 1 = false ∧
    processSingleFile envRefFree [fileB] [fileB] 1 =
      ([({ fileB with output := some outW, status := FileStatus.completed } : ProgramFile)],
       ⟨1, 0, [], [1]⟩) ∧
    envRefOk.hasRef 1 = true ∧ envRefOk.capture 1 = Except.ok 9 ∧
    processSingleFile envRefOk [fileB] [fileB] 1 =
      ([({ fileB with
            output := some outW, status := FileStatus.completed,
            imageBlob := some 9 } : ProgramFile)],
       ⟨1, 1, [], [1]⟩) := by
  have h1 := (processSingleFile_missing_ref envRefFree [fileB] [fileB] 1 fileB (by decide)).1 rfl
  have h2 := (processSingleFile_missing_ref envRefOk [fileB] [fileB] 1 fileB (by decide)).2 9 rfl rfl
  refine ⟨by decide, rfl, ?_, rfl, rfl, ?_⟩
  · rw [h1]
    decide
  · rw [h2]
    decide

/-- C6 counterexample: with numbering disabled, the separator class in the code
is the regex class `[_\-\s]`, so a tab after `[index]` is deleted; the
class "underscore, hyphen, or space" in the claim excludes the tab and
prescribes keeping it. -/
theorem formatName_tab_sep_cex :
    formatName cfgOff ("[index]\t[name]".data) fileAPy 0 = "a".data ∧
    formatNameClaimed cfgOff ("[index]\t[name]".data) fileAPy 0 = "\ta".data ∧
    ("a".data : Str) ≠ "\ta".data := by decide

/-- C6 amended: on a pattern whose bracket-free segments are interleaved
with `[index]` occurrences, enabled numbering replaces every occurrence by
the decimal rendering of startIndex + index, and disabled numbering
deletes every occurrence together with at most one immediately following
separator from the class `[_\-\s]` (underscore, hyphen, or whitespace);
including the two concrete examples of the specification. -/
theorem formatName_index_expansion :
    (∀ (p : Str) (ps : List Str) (file : ProgramFile) (i : Nat) (st : Int),
      '[' ∉ p → (∀ q ∈ ps, '[' ∉ q) →
      formatName ⟨st, true⟩ (joinWith indexTok (p :: ps)) file i =
        joinWith (intStr (st + i)) (p :: ps) ∧
      formatName ⟨st, false⟩ (joinWith indexTok (p :: ps)) file i =
        p ++ (ps.map dropOneSep).flatten) ∧
    formatName cfgOn ("[index]_[name]".data) fileAPy 0 = "1_a".data ∧
    formatName cfgOff ("[index]_[name]".data) fileAPy 0 = "a".data := by
  refine ⟨formatName_joinWith_split, by decide, by decide⟩

/-- Witness for the amended C6 on the pattern x[index]_y. -/
theorem formatName_index_expansion_witness :
    ('[' ∉ ("x".data : Str)) ∧ (∀ q ∈ (["_y".data] : List Str), '[' ∉ q) ∧
    formatName ⟨1, true⟩ ("x[index]_y".data) fileAPy 0 = "x1_y".data ∧
    formatName ⟨1, false⟩ ("x[index]_y".data) fileAPy 0 = "xy".data := by
  have h := (formatName_index_expansion).1 ("x".data) ["_y".data] fileAPy 0 1
    (by decide) (by decide)
  exact ⟨by decide, by decide, h.1, h.2⟩

/-- C7 counterexample: a filename with no dot makes `[ext]` expand to the
whole filename (`split('.').pop()`), not the empty string the claim
prescribes. -/
theorem formatName_ext_noext_cex :
    formatName cfgOn ("[ext]".data) fileNoext 0 = "noext".data ∧
    ("noext".data : Str) ≠ [] := by decide

/-- C7 amended: for filenames free of the bracket character (which would
re-inject placeholders) and of the dollar character (for which the
ECMAScript replacement would rewrite dollar sequences), `[ext]` expands
to the substring after the last dot when the filename contains a dot, and
to the whole filename otherwise. -/
theorem formatName_ext_expansion :
    ∀ (file : ProgramFile) (i : Nat) (cfg : NamingConfig),
      '[' ∉ file.name → '$' ∉ file.name →
      formatName cfg extTok file i =
        (if '.' ∈ file.name then file.name.drop ((lastIndexOf '.' file.name).toNat + 1)
         else file.name) := by
  intro file i cfg h hd
  rw [formatName_ext file i cfg h, extOf_eq]

/-- Witness for the amended C7 on Main.java. -/
theorem formatName_ext_expansion_witness :
    ('[' ∉ fileMainJava.name) ∧ ('$' ∉ fileMainJava.name) ∧
    formatName cfgOn extTok fileMainJava 0 = "java".data := by
  have h := formatName_ext_expansion fileMainJava 0 cfgOn (by decide) (by decide)
  refine ⟨by decide, by decide, ?_⟩
  rw [h]
  decide

/-- C8 counterexample: the pattern [name] contains no [index], yet a
filename that itself contains "[index]" re-introduces the placeholder
through the [name] substitution, so the output depends on the numbering
flag. -/
theorem formatName_index_injected_cex :
    occursIn indexTok ("[name]".data) = false ∧
    formatName cfgOn ("[name]".data) fileInj 0 = "1".data ∧
    formatName cfgOff ("[name]".data) fileInj 0 = [] ∧
    ("1".data : Str) ≠ [] := by decide

/-- Witness for the amended C8: a pattern whose expansion stays free of
[index] yields the same name for any index, start index, and numbering
flag. -/
theorem formatName_no_index_independent_witness :
    ('$' ∉ fileAPy.name) ∧
    occursIn indexTok (expandFileToks ("[name]_output".data) fileAPy) = false ∧
    formatName ⟨1, true⟩ ("[name]_output".data) fileAPy 0 =
      formatName ⟨9, false⟩ ("[name]_output".data) fileAPy 5 ∧
    formatName ⟨1, true⟩ ("[name]_output".data) fileAPy 0 = "a_output".data := by
  refine ⟨by decide, by decide, ?_, by decide⟩
  exact formatName_no_index_independent ("[name]_output".data) fileAPy 0 5 1 9 true false
    (by decide) (by decide)

/-- C9 counterexample: two items with the same filename collide on the
folder name, so an archive built from 2 items (one with an image, one
without) has exactly 1 distinct top-level folder, not the 2 the claim
prescribes. -/
theorem generateSubmissionZip_collision_cex :
    ((generateSubmissionZip [itemColA, itemColB] ("[name]".data) ("[name]_output".data)
      cfgOn).map ZipEntry.folder).dedup.length = 1 ∧ (1 : Nat) ≠ 2 := by decide

/-- C9 amended: for items whose filenames are free of the dollar
character (so the modelled name expansion is the one the program
computes), every item writes its content under its original filename into
its pattern-named folder, an entry for the captured image is written
exactly when one exists — the only-if direction stated under pairwise
distinct folder names, since colliding items share a folder — and, when
the two folder names are distinct, a 2-item archive (one item with an
image, one without) has exactly 2 distinct top-level folders, with 2
files in the image-bearing one and 1 in the other. -/
theorem generateSubmissionZip_layout :
    (∀ (files : List ProgramFile) (fp sp : Str) (cfg : NamingConfig) (i : Nat)
        (file : ProgramFile),
      (∀ f ∈ files, '$' ∉ f.name) →
      files[i]? = some file →
      (ZipEntry.mk (formatName cfg fp file i) file.name (ZipData.text file.content) ∈
        generateSubmissionZip files fp sp cfg) ∧
      (∀ b, file.imageBlob = some b →
        ZipEntry.mk (formatName cfg fp file i)
          (formatName cfg sp file i ++ pngSuffix) (ZipData.blob b) ∈
          generateSubmissionZip files fp sp cfg) ∧
      (file.imageBlob = none →
        ((files.enum).map (fun p => formatName cfg fp p.2 p.1)).Nodup →
        ∀ b nm, ZipEntry.mk (formatName cfg fp file i) nm (ZipData.blob b) ∉
          generateSubmissionZip files fp sp cfg)) ∧
    ((generateSubmissionZip [itemImg, itemNoImg] ("[index]_[name]".data)
      ("[name]_output".data) cfgOn).map ZipEntry.folder).dedup.length = 2 ∧
    ((generateSubmissionZip [itemImg, itemNoImg] ("[index]_[name]".data)
      ("[name]_output".data) cfgOn).filter (fun z => z.folder == "1_a".data)).length = 2 ∧
    ((generateSubmissionZip [itemImg, itemNoImg] ("[index]_[name]".data)
      ("[name]_output".data) cfgOn).filter (fun z => z.folder == "2_b".data)).length = 1 := by
  refine ⟨?_, by decide, by decide, by decide⟩
  intro files fp sp cfg i file hdollar hget
  have hmem : (i, file) ∈ files.enum := List.mk_mem_enum_iff_getElem?.mpr hget
  refine ⟨?_, ?_, ?_⟩
  · unfold generateSubmissionZip
    refine List.mem_flatMap.mpr ⟨(i, file), hmem, ?_⟩
    exact List.mem_cons_self _ _
  · intro b hb
    unfold generateSubmissionZip
    refine List.mem_flatMap.mpr ⟨(i, file), hmem, ?_⟩
    dsimp only
    rw [hb]
    exact List.mem_cons_of_mem _ (List.mem_cons_self _ _)
  · intro hnone hnd b nm hin
    unfold generateSubmissionZip at hin
    obtain ⟨p, hp, hpe⟩ := List.mem_flatMap.mp hin
    dsimp only at hpe
    rcases List.mem_cons.mp hpe with he | he
    · simp at he
    · cases hpi : p.2.imageBlob with
      | none =>
        rw [hpi] at he
        cases he
      | some b2 =>
        rw [hpi] at he
        have heq := List.mem_singleton.mp he
        have hfold : formatName cfg fp p.2 p.1 = formatName cfg fp file i := by
          have := congrArg ZipEntry.folder heq
          simpa using this.symm
        have hpeq : p = (i, file) :=
          List.inj_on_of_nodup_map hnd hp hmem hfold
        rw [hpeq] at hpi
        rw [hnone] at hpi
        cases hpi

/-- Witness for the amended C9 on the 2-item archive: both directions of
the png-entry condition, at an item with an image and at one without. -/
theorem generateSubmissionZip_layout_witness :
    (∀ f ∈ ([itemImg, itemNoImg] : List ProgramFile), '$' ∉ f.name) ∧
    ([itemImg, itemNoImg] : List ProgramFile)[0]? = some itemImg ∧
    ([itemImg, itemNoImg] : List ProgramFile)[1]? = some itemNoImg ∧
    (ZipEntry.mk (formatName cfgOn ("[index]_[name]".data) itemImg 0) itemImg.name
        (ZipData.text itemImg.content) ∈
      generateSubmissionZip [itemImg, itemNoImg] ("[index]_[name]".data)
        ("[name]_output".data) cfgOn) ∧
    itemImg.imageBlob = some 5 ∧
    (ZipEntry.mk (formatName cfgOn ("[index]_[name]".data) itemImg 0)
        (formatName cfgOn ("[name]_output".data) itemImg 0 ++ pngSuffix) (ZipData.blob 5) ∈
      generateSubmissionZip [itemImg, itemNoImg] ("[index]_[name]".data)
        ("[name]_output".data) cfgOn) ∧
    itemNoImg.imageBlob = none ∧
    ((([itemImg, itemNoImg] : List ProgramFile).enum).map
      (fun p => formatName cfgOn ("[index]_[name]".data) p.2 p.1)).Nodup ∧
    (∀ b nm,
      ZipEntry.mk (formatName cfgOn ("[index]_[name]".data) itemNoImg 1) nm (ZipData.blob b) ∉
        generateSubmissionZip [itemImg, itemNoImg] ("[index]_[name]".data)
          ("[name]_output".data) cfgOn) := by
  have h0 := (generateSubmissionZip_layout).1 [itemImg, itemNoImg] ("[index]_[name]".data)
    ("[name]_output".data) cfgOn 0 itemImg (by decide) rfl
  have h1 := (generateSubmissionZip_layout).1 [itemImg, itemNoImg] ("[index]_[name]".data)
    ("[name]_output".data) cfgOn 1 itemNoImg (by decide) rfl
  exact ⟨by decide, rfl, rfl, h0.1, rfl, h0.2.1 5 rfl, rfl, by decide, h1.2.2 rfl (by decide)⟩
